import Mathlib

/-!
Verification of the `properties-builder` command-line filter.

The Rust sources (`model.rs`, `properties_parser.rs`, `overriding.rs`,
`main.rs`) are shallowly embedded below.  Strings are modelled as `List Char`
(`Str`); Rust `HashMap`s are modelled as association lists with unique keys,
their unspecified iteration order standing for the order of the list.

Modelling notes, applying throughout:
* Rust's `str::to_uppercase` / `str::to_lowercase` are modelled as per-ASCII
  character maps (`rustToUppercaseChar`, `rustToLowercaseChar`); the full
  Unicode case tables are out of scope of this embedding.  Every scenario the
  claims exercise is ASCII, where the modelling is exact.
* Rust's `char::is_whitespace` and the regex class `\s` both denote the
  Unicode `White_Space` property, embedded exactly in `rustIsWhitespace`.
* Byte indices and byte lengths of Rust strings coincide with character
  indices and lengths on ASCII data; the claims' inputs are ASCII, and the
  one claim about byte slicing (C9) carries an explicit ASCII hypothesis.
* The `while` loop of `CustomCaseSensitiveStyleOverrider::generate_additions`
  is embedded with explicit fuel `length + 1`.  This fuel is exact: a loop
  step that does not advance `start` reproduces the same state forever (the
  loop body is deterministic in `start`), so a terminating run advances at
  every step and performs at most `length` iterations; hence the fuelled
  function returns `some` exactly when the Rust loop terminates, and `none`
  exactly when it diverges.
-/

deriving instance DecidableEq for Except

namespace PropertiesBuilder

/-- Strings, modelled as lists of characters. -/
abbrev Str := List Char

/-- Rust `char::is_whitespace`, i.e. the Unicode `White_Space` property; this
is also the character class matched by `\s` in the `regex` crate. -/
def rustIsWhitespace (c : Char) : Bool :=
  (9 ≤ c.toNat && c.toNat ≤ 13) || c.toNat == 32 || c.toNat == 133 ||
    c.toNat == 160 || c.toNat == 5760 || (8192 ≤ c.toNat && c.toNat ≤ 8202) ||
    c.toNat == 8232 || c.toNat == 8233 || c.toNat == 8239 ||
    c.toNat == 8287 || c.toNat == 12288

/-- Rust `str::to_uppercase`, restricted to ASCII (see the header note). -/
def rustToUppercaseChar (c : Char) : Char :=
  if 97 ≤ c.toNat && c.toNat ≤ 122 then Char.ofNat (c.toNat - 32) else c

/-- Rust `str::to_lowercase`, restricted to ASCII (see the header note). -/
def rustToLowercaseChar (c : Char) : Char :=
  if 65 ≤ c.toNat && c.toNat ≤ 90 then Char.ofNat (c.toNat + 32) else c

/-- Rust `str::trim_end_matches("\n")`: strip every trailing newline. -/
def trimEndNewlines (s : Str) : Str :=
  (s.reverse.dropWhile (fun c => c == '\n')).reverse

/-- Rust `str::split_once` with a single-character pattern: split at the first
occurrence of `sep`, or `none` when `sep` does not occur. -/
def splitOnceChar (sep : Char) : Str → Option (Str × Str)
  | [] => none
  | c :: cs =>
    if c = sep then some ([], cs)
    else (splitOnceChar sep cs).map (fun p => (c :: p.1, p.2))

/-- `Property` from `model.rs`. -/
structure Property where
  key : Str
  value : Str
deriving DecidableEq

/-- `InternalError` from `model.rs` (the `FileAccessError` variant wraps
`io::Error` and never arises from the embedded core, so it is omitted). -/
inductive InternalError where
  | ParseError (lineNum : Int) (message : Str)
  | ArgumentValidationErrors (messages : List Str)
deriving DecidableEq

/-- `Line` from `properties_parser.rs`. -/
inductive Line where
  | ignorable (s : Str)
  | prop (p : Property)
deriving DecidableEq

/-- `parse_line` from `properties_parser.rs`.  The regex `^\s*\n*$` matches a
string exactly when all of its characters are whitespace (`\n` is itself in
`\s`, and `\s*` may absorb the whole string), which is how the second test is
rendered here. -/
def parseLine (line : Str) (lineNum : Int) : Except InternalError Line :=
  if line.head? = some '#' then .ok (.ignorable (trimEndNewlines line))
  else if line.all rustIsWhitespace then .ok (.ignorable (trimEndNewlines line))
  else
    match splitOnceChar '=' line with
    | none => .error (.ParseError lineNum "missing '='".toList)
    | some (key, value) =>
      if key.contains ' ' then
        .error (.ParseError lineNum
          ( "key '".toList ++ key ++ "' contains spaces".toList))
      else .ok (.prop ⟨key, trimEndNewlines value⟩)

/-! Helper lemmas about the parser's string primitives. -/

theorem head?_dropWhile_false (p : Char → Bool) :
    ∀ (l : Str) (x : Char), (l.dropWhile p).head? = some x → p x = false := by
  intro l
  induction l with
  | nil => intro x h; simp [List.dropWhile] at h
  | cons c cs ih =>
    intro x h
    by_cases hc : p c
    · rw [List.dropWhile_cons_of_pos hc] at h
      exact ih x h
    · rw [List.dropWhile_cons_of_neg hc] at h
      simp at h
      subst h
      exact Bool.eq_false_iff.mpr hc

theorem trimEndNewlines_decomp (s : Str) :
    ∃ m, s = trimEndNewlines s ++ List.replicate m '\n' := by
  refine ⟨(s.reverse.takeWhile (fun c => c == '\n')).length, ?_⟩
  have hrep : s.reverse.takeWhile (fun c => c == '\n') =
      List.replicate (s.reverse.takeWhile (fun c => c == '\n')).length '\n' := by
    apply List.eq_replicate_of_mem
    intro b hb
    have := List.mem_takeWhile_imp hb
    simpa using this
  conv_lhs => rw [← s.reverse_reverse,
    ← List.takeWhile_append_dropWhile (p := fun c => c == '\n') (l := s.reverse)]
  rw [List.reverse_append, trimEndNewlines]
  congr 1
  rw [hrep, List.reverse_replicate]
  simp

theorem trimEndNewlines_getLast (s : Str) :
    (trimEndNewlines s).getLast? ≠ some '\n' := by
  rw [trimEndNewlines, List.getLast?_reverse]
  intro h
  have := head?_dropWhile_false (fun c => c == '\n') s.reverse '\n' h
  simp at this

theorem splitOnceChar_eq_none (sep : Char) (l : Str) :
    splitOnceChar sep l = none ↔ l.contains sep = false := by
  induction l with
  | nil => simp [splitOnceChar]
  | cons c cs ih =>
    by_cases h : c = sep
    · subst h
      simp [splitOnceChar]
    · simp [splitOnceChar, h, ih, Ne.symm h]

theorem splitOnceChar_eq_some_of_contains (sep : Char) (l : Str)
    (h : l.contains sep = true) :
    splitOnceChar sep l =
      some (l.takeWhile (fun c => c != sep), (l.dropWhile (fun c => c != sep)).tail) := by
  induction l with
  | nil => simp at h
  | cons c cs ih =>
    by_cases hc : c = sep
    · subst hc
      simp [splitOnceChar, List.takeWhile_cons, List.dropWhile_cons]
    · have hcs : cs.contains sep = true := by
        simp [Ne.symm hc] at h
        simpa using h
      simp [splitOnceChar, hc, ih hcs, List.takeWhile_cons, List.dropWhile_cons]

theorem splitOnceChar_append (sep : Char) (key rest : Str)
    (h : key.contains sep = false) :
    splitOnceChar sep (key ++ sep :: rest) = some (key, rest) := by
  induction key with
  | nil => simp [splitOnceChar]
  | cons c cs ih =>
    have hne : ¬ sep = c := by
      intro e
      rw [e] at h
      simp at h
    have hcs : cs.contains sep = false := by
      simp [hne] at h
      simpa using h
    simp [splitOnceChar, Ne.symm hne, ih hcs]

/-- C5: for every line that is neither a comment nor whitespace-only,
`parse_line` errs exactly when the line has no `=` (message `missing '='`) or
the part left of the first `=` contains a space (message
`key '<key>' contains spaces`, with the literal key text); the error carries
the given line number and is always a `ParseError`. -/
theorem parseLine_error_characterization (line : Str) (n : Int) (e : InternalError)
    (h1 : ¬ line.head? = some '#') (h2 : ¬ line.all rustIsWhitespace = true) :
    (parseLine line n = .error e ↔
      (line.contains '=' = false ∧ e = .ParseError n "missing '='".toList) ∨
      (line.contains '=' = true ∧
        (line.takeWhile (fun c => c != '=')).contains ' ' = true ∧
        e = .ParseError n ( "key '".toList ++ line.takeWhile (fun c => c != '=') ++
          "' contains spaces".toList))) := by
  cases hc : line.contains '=' with
  | false =>
    have hs : splitOnceChar '=' line = none := (splitOnceChar_eq_none _ _).mpr hc
    simp [parseLine, h1, h2, hs, eq_comm]
  | true =>
    have hs := splitOnceChar_eq_some_of_contains '=' line hc
    by_cases hk : ' ' ∈ line.takeWhile (fun c => c != '=')
    · simp [parseLine, h1, h2, hs, hk, eq_comm]
    · simp [parseLine, h1, h2, hs, hk]

/-- Witness for `parseLine_error_characterization` at the concrete line
`foobar` and line number `7`. -/
theorem parseLine_error_characterization_witness :
    ¬ ( "foobar".toList.head? = some '#') ∧
    ¬ ( "foobar".toList.all rustIsWhitespace = true) ∧
    (parseLine "foobar".toList 7 = .error (.ParseError 7 "missing '='".toList) ↔
      ( "foobar".toList.contains '=' = false ∧
        InternalError.ParseError 7 "missing '='".toList =
          .ParseError 7 "missing '='".toList) ∨
      ( "foobar".toList.contains '=' = true ∧
        ( "foobar".toList.takeWhile (fun c => c != '=')).contains ' ' = true ∧
        InternalError.ParseError 7 "missing '='".toList =
          .ParseError 7 ( "key '".toList ++
            "foobar".toList.takeWhile (fun c => c != '=') ++
            "' contains spaces".toList))) :=
  ⟨by decide, by decide,
    parseLine_error_characterization "foobar".toList 7
      (.ParseError 7 "missing '='".toList) (by decide) (by decide)⟩

/-- C6: a line starting with `#`, or consisting only of whitespace, parses to
`Ignorable` carrying the line with its trailing newlines stripped and every
other character preserved (the stored text is a prefix of the line, the rest
of the line is newlines, and the stored text does not end in a newline). -/
theorem parseLine_ignorable (line : Str) (n : Int)
    (h : line.head? = some '#' ∨ line.all rustIsWhitespace = true) :
    parseLine line n = .ok (.ignorable (trimEndNewlines line)) ∧
      (∃ m, line = trimEndNewlines line ++ List.replicate m '\n') ∧
      (trimEndNewlines line).getLast? ≠ some '\n' := by
  refine ⟨?_, trimEndNewlines_decomp line, trimEndNewlines_getLast line⟩
  by_cases hh : line.head? = some '#'
  · simp [parseLine, hh]
  · cases h with
    | inl h => exact absurd h hh
    | inr h => simp [parseLine, hh, h]

/-- Witness for `parseLine_ignorable` at the concrete comment line
`# abc` followed by two newlines. -/
theorem parseLine_ignorable_witness :
    ( "# abc\n\n".toList.head? = some '#' ∨
      "# abc\n\n".toList.all rustIsWhitespace = true) ∧
    (parseLine "# abc\n\n".toList 3 =
        .ok (.ignorable (trimEndNewlines "# abc\n\n".toList)) ∧
      (∃ m, "# abc\n\n".toList =
        trimEndNewlines "# abc\n\n".toList ++ List.replicate m '\n') ∧
      (trimEndNewlines "# abc\n\n".toList).getLast? ≠ some '\n') :=
  ⟨by decide, parseLine_ignorable "# abc\n\n".toList 3 (by decide)⟩

/-- C7: a non-ignorable line `key ++ "=" ++ rest` whose key contains no space
(and no `=`, so that `key` is exactly the text left of the first `=`) parses
to `Prop(key, rest with trailing newlines stripped)`; nothing else of the
value is changed. -/
theorem parseLine_keyvalue (key rest : Str) (n : Int)
    (hk : key.contains '=' = false) (hsp : key.contains ' ' = false)
    (hig : ¬ ((key ++ '=' :: rest).head? = some '#' ∨
      (key ++ '=' :: rest).all rustIsWhitespace = true)) :
    parseLine (key ++ '=' :: rest) n = .ok (.prop ⟨key, trimEndNewlines rest⟩) ∧
      (∃ m, rest = trimEndNewlines rest ++ List.replicate m '\n') ∧
      (trimEndNewlines rest).getLast? ≠ some '\n' := by
  push_neg at hig
  refine ⟨?_, trimEndNewlines_decomp rest, trimEndNewlines_getLast rest⟩
  have hs := splitOnceChar_append '=' key rest hk
  have hhd : ¬ key.head? = some '#' := by
    intro h
    apply hig.1
    cases key with
    | nil => simp at h
    | cons c cs => simp at h ⊢; exact h
  have hspm : ¬ ' ' ∈ key := by simpa using hsp
  simp [parseLine, hig.1, hig.2, hs, hhd, hspm]

/-- Witness for `parseLine_keyvalue` at the concrete line `key1=value1` with a
trailing newline. -/
theorem parseLine_keyvalue_witness :
    ( "key1".toList.contains '=' = false) ∧
    ( "key1".toList.contains ' ' = false) ∧
    ¬ (( "key1".toList ++ '=' :: "value1\n".toList).head? = some '#' ∨
      ( "key1".toList ++ '=' :: "value1\n".toList).all rustIsWhitespace = true) ∧
    (parseLine ( "key1".toList ++ '=' :: "value1\n".toList) 4 =
        .ok (.prop ⟨ "key1".toList, trimEndNewlines "value1\n".toList⟩) ∧
      (∃ m, "value1\n".toList =
        trimEndNewlines "value1\n".toList ++ List.replicate m '\n') ∧
      (trimEndNewlines "value1\n".toList).getLast? ≠ some '\n') :=
  ⟨by decide, by decide, by decide,
    parseLine_keyvalue "key1".toList "value1\n".toList 4
      (by decide) (by decide) (by decide)⟩

/-! Embedding of `overriding.rs`. -/

/-- `Environment` from `overriding.rs`: an immutable case-sensitive snapshot
of name-to-value pairs.  The Rust `HashMap` is modelled as an association
list with unique names, list order standing for the map's unspecified
iteration order. -/
abbrev Environment := List (Str × Str)

/-- `Environment::get`: exact, case-sensitive lookup. -/
def envGet (env : Environment) (name : Str) : Option Str :=
  (env.find? (fun e => e.1 == name)).map (fun e => e.2)

/-- Rust `str::replace` with a single-character pattern and a
single-character replacement string. -/
def replaceChar (pat rep : Char) (s : Str) : Str :=
  s.map (fun c => if c = pat then rep else c)

/-- `SpringStyleOverrider::resolve_substitution`: prepend the prefix (or
nothing) to the key with `.` and then `-` replaced by `_` and uppercased,
then look that name up in the environment. -/
def springResolveSubstitution (env : Environment) (key : Str) (pfx : Option Str) :
    Option Str :=
  envGet env
    ((pfx.getD []) ++ (replaceChar '-' '_' (replaceChar '.' '_' key)).map rustToUppercaseChar)

/-- Rust `str::trim_start_matches`: repeatedly strip the pattern from the
front (a no-op for the empty pattern).  Fuel `s.length` is enough: each strip
removes at least one character. -/
def trimStartMatchesAux (pat : Str) : Nat → Str → Str
  | 0, s => s
  | fuel + 1, s =>
    if pat.isPrefixOf s && !pat.isEmpty then trimStartMatchesAux pat fuel (s.drop pat.length)
    else s

/-- Rust `str::trim_start_matches` at adequate fuel. -/
def trimStartMatches (pat s : Str) : Str := trimStartMatchesAux pat s.length s

/-- Key transformation applied by `SpringStyleOverrider::generate_additions`
to a matching entry name: `trim_start_matches` of the prefix, `_` replaced by
`.`, lowercased. -/
def springAdditionKey (pfx name : Str) : Str :=
  (replaceChar '_' '.' (trimStartMatches pfx name)).map rustToLowercaseChar

/-- `SpringStyleOverrider::generate_additions`: one property per environment
entry whose name starts with the prefix (the intermediate `HashMap` copy in
the source holds exactly these entries, names being unique). -/
def springGenerateAdditions (env : Environment) (pfx : Str) : List Property :=
  (env.filter (fun e => pfx.isPrefixOf e.1)).map
    (fun e => ⟨springAdditionKey pfx e.1, e.2⟩)

/-- The `character_replacement_map` of `CustomCaseSensitiveStyleOverrider`,
modelled as an association list with unique character keys. -/
abbrev ReplacementMap := List (Char × Str)

/-- `HashMap::get` on the replacement map. -/
def rmapGet (m : ReplacementMap) (c : Char) : Option Str :=
  (m.find? (fun e => e.1 == c)).map (fun e => e.2)

/-- `CustomCaseSensitiveStyleOverrider::process_character`. -/
def processCharacter (m : ReplacementMap) (c : Char) : Str :=
  match rmapGet m c with
  | none => [c]
  | some s => s

/-- `CustomCaseSensitiveStyleOverrider::resolve_substitution`: fold the key's
characters onto the prefix (or nothing), each contributing its replacement
string or itself, then look the result up in the environment. -/
def customResolveSubstitution (m : ReplacementMap) (env : Environment) (key : Str)
    (pfx : Option Str) : Option Str :=
  envGet env (key.foldl (fun acc c => acc ++ processCharacter m c) (pfx.getD []))

/-- The `reverse_replacement_index` built by `generate_additions`.  On
duplicate replacement strings the Rust `HashMap` keeps the last write of an
unspecified iteration order; the model keeps the association list and looks
up the first match (no claim exercises duplicate replacement strings). -/
def reverseReplacementIndex (m : ReplacementMap) : List (Str × Char) :=
  m.map (fun e => (e.2, e.1))

/-- Lookup into the reverse index. -/
def revGet (idx : List (Str × Char)) (s : Str) : Option Char :=
  (idx.find? (fun e => e.1 == s)).map (fun e => e.2)

/-- Stable insertion into a list sorted by non-increasing length: the new
element goes after all existing elements of greater or equal length, as
Rust's stable `sort_by` with the comparator in `generate_additions` orders
equal lengths by original position. -/
def insertByLenDesc (s : Str) : List Str → List Str
  | [] => [s]
  | t :: ts => if t.length < s.length then s :: t :: ts else t :: insertByLenDesc s ts

/-- The `replacement_descending` list: replacement strings sorted by
non-increasing length. -/
def sortByLenDesc (l : List Str) : List Str :=
  l.foldl (fun r s => insertByLenDesc s r) []

/-- Candidate replacement strings in descending length order. -/
def replacementDescending (m : ReplacementMap) : List Str :=
  sortByLenDesc ((reverseReplacementIndex m).map (fun e => e.1))

/-- The inner `for candidate in &replacement_descending` search: the first
candidate (in descending-length order) that fits and occurs in `s` at
position `start`. -/
def findCandidate (cands : List Str) (s : Str) (start : Nat) : Option Str :=
  cands.find? (fun c =>
    decide (start + c.length ≤ s.length) && ((s.drop start).take c.length == c))

/-- The `while start < prefixless_key.len()` loop of
`CustomCaseSensitiveStyleOverrider::generate_additions`, with explicit fuel
(see the header note: fuel `s.length + 1` is exact, so `none` at that fuel
means the Rust loop diverges).  The `none` branch of `revGet` mirrors the
`unwrap` on the reverse index, unreachable because every candidate is a key
of that index. -/
def reverseScanLoop (idx : List (Str × Char)) (cands : List Str) (s : Str) :
    Nat → Nat → Str → Option Str
  | 0, start, acc => if start < s.length then none else some acc
  | fuel + 1, start, acc =>
    if start < s.length then
      match findCandidate cands s start with
      | some c =>
        match revGet idx c with
        | some ch => reverseScanLoop idx cands s fuel (start + c.length) (acc ++ [ch])
        | none => none
      | none => reverseScanLoop idx cands s fuel (start + 1) (acc ++ (s.drop start).take 1)
    else some acc

/-- Reverse transliteration of one prefix-stripped entry name. -/
def customReverseKey (m : ReplacementMap) (s : Str) : Option Str :=
  reverseScanLoop (reverseReplacementIndex m) (replacementDescending m) s (s.length + 1) 0 []

/-- `CustomCaseSensitiveStyleOverrider::generate_additions`; `none` models a
run on which the Rust `while` loop never terminates. -/
def customGenerateAdditions (m : ReplacementMap) (env : Environment) (pfx : Str) :
    Option (List Property) :=
  (env.filter (fun e => pfx.isPrefixOf e.1)).mapM
    (fun e => (customReverseKey m (trimStartMatches pfx e.1)).map
      (fun k => Property.mk k e.2))

/-! Spring-style claims. -/

/-- Lookup name as the spec describes it: the prefix (or nothing) followed by
the uppercase of the key with every `.` and `-` replaced by `_`. -/
def specSpringLookupName (key : Str) : Str :=
  (key.map (fun c => if c = '.' || c = '-' then '_' else c)).map rustToUppercaseChar

/-- C3: `SpringStyleOverrider::resolve_substitution` is exactly the
environment lookup of the prefix (empty if absent) concatenated with the
spec's transliterated key — `some v` precisely when the environment maps that
name to `v`, `none` otherwise. -/
theorem springResolveSubstitution_eq_lookup (env : Environment) (key : Str)
    (pfx : Option Str) :
    springResolveSubstitution env key pfx =
      envGet env ((pfx.getD []) ++ specSpringLookupName key) := by
  have hmap : ∀ c : Char,
      rustToUppercaseChar ((fun d => if d = '-' then '_' else d)
        ((fun d => if d = '.' then '_' else d) c)) =
      rustToUppercaseChar ((fun c => if c = '.' || c = '-' then '_' else c) c) := by
    intro c
    by_cases h1 : c = '.'
    · simp [h1]
    · by_cases h2 : c = '-' <;> simp [h1, h2]
  simp only [springResolveSubstitution, specSpringLookupName, replaceChar,
    List.map_map]
  congr 2
  exact List.map_congr_left (fun a _ => hmap a)

/-- Addition key as the claim describes it: strip the prefix once, replace
`_` by `.`, lowercase the remainder. -/
def specSpringAdditionKeyOnce (pfx name : Str) : Str :=
  (replaceChar '_' '.' (name.drop pfx.length)).map rustToLowercaseChar

/-- Additions as the claim describes them. -/
def specSpringAdditionsOnce (env : Environment) (pfx : Str) : List Property :=
  (env.filter (fun e => pfx.isPrefixOf e.1)).map
    (fun e => ⟨specSpringAdditionKeyOnce pfx e.1, e.2⟩)

/-- C2 counterexample: for the environment entry `PP_PP_FOO = v` and prefix
`PP_`, the code strips the prefix twice (`trim_start_matches` removes every
leading occurrence) and yields key `foo`, while stripping the prefix once as
the claim states would yield `pp.foo`. -/
theorem springGenerateAdditions_strips_repeatedly :
    springGenerateAdditions [( "PP_PP_FOO".toList, "v".toList)] ("PP_".toList) =
      [⟨ "foo".toList, "v".toList⟩] ∧
    specSpringAdditionsOnce [( "PP_PP_FOO".toList, "v".toList)] ("PP_".toList) =
      [⟨ "pp.foo".toList, "v".toList⟩] ∧
    ( "foo".toList : Str) ≠ "pp.foo".toList := by
  refine ⟨by decide, by decide, by decide⟩

/-- C2 as amended: `SpringStyleOverrider::generate_additions` returns one
property per environment entry whose name starts with the prefix and no
others; each key is obtained from the entry name by repeatedly stripping
every leading occurrence of the prefix, replacing `_` by `.` and lowercasing,
and the value is unchanged. -/
theorem springGenerateAdditions_characterization (env : Environment) (pfx : Str) :
    (springGenerateAdditions env pfx).length =
      (env.filter (fun e => pfx.isPrefixOf e.1)).length ∧
    (∀ n v, (n, v) ∈ env → pfx.isPrefixOf n = true →
      Property.mk (springAdditionKey pfx n) v ∈ springGenerateAdditions env pfx) ∧
    (∀ q, q ∈ springGenerateAdditions env pfx →
      ∃ n v, (n, v) ∈ env ∧ pfx.isPrefixOf n = true ∧
        q = Property.mk (springAdditionKey pfx n) v) := by
  refine ⟨by simp [springGenerateAdditions], ?_, ?_⟩
  · intro n v hm hp
    unfold springGenerateAdditions
    exact List.mem_map.mpr ⟨(n, v), List.mem_filter.mpr ⟨hm, hp⟩, rfl⟩
  · intro q hq
    unfold springGenerateAdditions at hq
    obtain ⟨e, he, hev⟩ := List.mem_map.mp hq
    obtain ⟨hmem, hpref⟩ := List.mem_filter.mp he
    exact ⟨e.1, e.2, hmem, hpref, hev.symm⟩

/-- Witness for `springGenerateAdditions_characterization` on the entry
`PP_FOO = v` with prefix `PP_`. -/
theorem springGenerateAdditions_characterization_witness :
    (( "PP_FOO".toList, "v".toList) ∈
      ([( "PP_FOO".toList, "v".toList)] : Environment)) ∧
    ( "PP_".toList.isPrefixOf "PP_FOO".toList = true) ∧
    Property.mk (springAdditionKey "PP_".toList "PP_FOO".toList) "v".toList ∈
      springGenerateAdditions [( "PP_FOO".toList, "v".toList)] ("PP_".toList) :=
  ⟨by decide, by decide,
    (springGenerateAdditions_characterization
      [( "PP_FOO".toList, "v".toList)] ("PP_".toList)).2.1
      "PP_FOO".toList "v".toList (by decide) (by decide)⟩

/-! Custom-style claims. -/

/-- `mapM` over `Option` on a singleton list. -/
theorem option_mapM_singleton {α β : Type} (f : α → Option β) (x : α) :
    List.mapM f [x] = (f x).map (fun b => [b]) := by
  cases hfx : f x <;> simp [List.mapM, List.mapM.loop, hfx]

/-- Folding the per-character replacements from an arbitrary accumulator
appends the fold from the empty accumulator. -/
theorem foldl_processCharacter_append (m : ReplacementMap) (init : Str) :
    ∀ key : Str,
      key.foldl (fun acc c => acc ++ processCharacter m c) init =
        init ++ key.foldl (fun acc c => acc ++ processCharacter m c) [] := by
  have hgen : ∀ (key : Str) (a : Str),
      key.foldl (fun acc c => acc ++ processCharacter m c) a =
        a ++ key.foldl (fun acc c => acc ++ processCharacter m c) [] := by
    intro key
    induction key with
    | nil => intro a; simp
    | cons c cs ih =>
      intro a
      simp only [List.foldl_cons]
      rw [ih (a ++ processCharacter m c), ih ([] ++ processCharacter m c)]
      simp [List.append_assoc]
  exact fun key => hgen key init

/-- C10: with an empty replacement map, `resolve_substitution` of the custom
overrider is the plain environment lookup of prefix-plus-key (key alone when
no prefix is given): the transliteration is the identity. -/
theorem customResolveSubstitution_empty_map (env : Environment) (key p : Str) :
    customResolveSubstitution [] env key (some p) = envGet env (p ++ key) ∧
    customResolveSubstitution [] env key none = envGet env key := by
  have hfold : ∀ (key : Str) (a : Str),
      key.foldl (fun acc c => acc ++ processCharacter [] c) a = a ++ key := by
    intro key
    induction key with
    | nil => intro a; simp
    | cons c cs ih =>
      intro a
      simp only [List.foldl_cons]
      rw [ih]
      simp [processCharacter, rmapGet]
  constructor
  · simp [customResolveSubstitution, hfold]
  · simp [customResolveSubstitution, hfold]

/-- The replacement map of C1: `.` to `_`, `-` to `__`, `_` to `___`. -/
def c1Map : ReplacementMap :=
  [('.', "_".toList), ('-', "__".toList), ('_', "___".toList)]

/-- The key of C1. -/
def c1Key : Str := "foo.bar-baz_foobarbaz".toList

/-- Forward transliteration of `c1Key` under `c1Map`. -/
def c1Fwd : Str := "foo_bar__baz___foobarbaz".toList

/-- C1 counterexample: with prefix `f`, the environment entry is
`f` + `foo_bar__baz___foobarbaz`; `trim_start_matches` strips the leading `f`
twice, so the addition's key is `oo.bar-baz_foobarbaz`, not the original key
(while the resolution half of the claim does hold). -/
theorem customRoundTrip_fails_on_overlapping_pfx :
    customResolveSubstitution c1Map [(('f' :: c1Fwd), "v".toList)] c1Key
        (some "f".toList) = some "v".toList ∧
    ('f' :: c1Fwd) = "f".toList ++ c1Fwd ∧
    customGenerateAdditions c1Map [(('f' :: c1Fwd), "v".toList)] ("f".toList) =
      some [⟨ "oo.bar-baz_foobarbaz".toList, "v".toList⟩] ∧
    ( "oo.bar-baz_foobarbaz".toList : Str) ≠ c1Key := by
  refine ⟨by decide, by decide, by decide, by decide⟩

/-- C1 as amended: for the map `{'.':"_", '-':"__", '_':"___"}`, key
`foo.bar-baz_foobarbaz` and any prefix `p` such that stripping every leading
occurrence of `p` from `p ++ <forward key>` leaves exactly the forward key
(any `p` the forward key does not itself start with, and in particular any
prefix ending in a character foreign to the key), the singleton environment
`p ++ <forward key> = v` makes `resolve_substitution` return `v` and
`generate_additions` reproduce the original key paired with `v`. -/
theorem customRoundTrip_c1 (p v : Str)
    (h : trimStartMatches p (p ++ c1Fwd) = c1Fwd) :
    customResolveSubstitution c1Map [(p ++ c1Fwd, v)] c1Key (some p) = some v ∧
    customGenerateAdditions c1Map [(p ++ c1Fwd, v)] p = some [⟨c1Key, v⟩] := by
  constructor
  · have hfold : c1Key.foldl (fun acc c => acc ++ processCharacter c1Map c) p =
        p ++ c1Fwd := by
      rw [foldl_processCharacter_append]
      rfl
    simp [customResolveSubstitution, hfold, envGet]
  · have hpre : p.isPrefixOf (p ++ c1Fwd) = true :=
      List.isPrefixOf_iff_prefix.mpr (List.prefix_append p c1Fwd)
    have hrev : customReverseKey c1Map c1Fwd = some c1Key := by decide
    unfold customGenerateAdditions
    rw [show (([(p ++ c1Fwd, v)] : Environment).filter
        (fun e => p.isPrefixOf e.1)) = [(p ++ c1Fwd, v)] by simp [hpre]]
    rw [option_mapM_singleton]
    simp [h, hrev]

/-- Witness for `customRoundTrip_c1` at prefix `PREFIX_` and value `value`. -/
theorem customRoundTrip_c1_witness :
    trimStartMatches "PREFIX_".toList ( "PREFIX_".toList ++ c1Fwd) = c1Fwd ∧
    (customResolveSubstitution c1Map [( "PREFIX_".toList ++ c1Fwd, "value".toList)]
        c1Key (some "PREFIX_".toList) = some "value".toList ∧
      customGenerateAdditions c1Map [( "PREFIX_".toList ++ c1Fwd, "value".toList)]
        "PREFIX_".toList = some [⟨c1Key, "value".toList⟩]) :=
  ⟨by decide, customRoundTrip_c1 "PREFIX_".toList "value".toList (by decide)⟩

/-! C9: totality of the custom reverse scan. -/

theorem mem_insertByLenDesc (s x : Str) (l : List Str) :
    x ∈ insertByLenDesc s l ↔ x = s ∨ x ∈ l := by
  induction l with
  | nil => simp [insertByLenDesc]
  | cons t ts ih =>
    by_cases hlt : t.length < s.length
    · simp [insertByLenDesc, hlt]
    · simp [insertByLenDesc, hlt, ih]
      tauto

theorem mem_sortByLenDesc (l : List Str) (x : Str) :
    x ∈ sortByLenDesc l ↔ x ∈ l := by
  have hgen : ∀ (l acc : List Str),
      x ∈ l.foldl (fun r s => insertByLenDesc s r) acc ↔ x ∈ acc ∨ x ∈ l := by
    intro l
    induction l with
    | nil => intro acc; simp
    | cons s ss ih =>
      intro acc
      simp only [List.foldl_cons]
      rw [ih, mem_insertByLenDesc]
      simp
      tauto
  unfold sortByLenDesc
  rw [hgen]
  simp

theorem revGet_cons (e : Str × Char) (es : List (Str × Char)) (c : Str) :
    revGet (e :: es) c = if e.1 = c then some e.2 else revGet es c := by
  by_cases h : e.1 = c <;> simp [revGet, List.find?_cons, h]

theorem revGet_isSome_of_mem (idx : List (Str × Char)) (c : Str)
    (h : c ∈ idx.map (fun e => e.1)) : ∃ ch, revGet idx c = some ch := by
  induction idx with
  | nil => simp at h
  | cons e es ih =>
    by_cases he : e.1 = c
    · exact ⟨e.2, by simp [revGet_cons, he]⟩
    · have : c ∈ es.map (fun e => e.1) := by
        simp at h
        rcases h with h | h
        · exact absurd h.symm he
        · simpa using h
      obtain ⟨ch, hch⟩ := ih this
      exact ⟨ch, by simp [revGet_cons, he, hch]⟩

theorem reverseScanLoop_total (idx : List (Str × Char)) (cands : List Str) (s : Str)
    (hc : ∀ c ∈ cands, c ≠ [] ∧ ∃ ch, revGet idx c = some ch) :
    ∀ (fuel start : Nat) (acc : Str), s.length ≤ start + fuel →
      ∃ r, reverseScanLoop idx cands s fuel start acc = some r := by
  intro fuel
  induction fuel with
  | zero =>
    intro start acc hle
    have hnot : ¬ start < s.length := by omega
    exact ⟨acc, by simp [reverseScanLoop, hnot]⟩
  | succ fuel ih =>
    intro start acc hle
    by_cases hlt : start < s.length
    · cases hfc : findCandidate cands s start with
      | none =>
        obtain ⟨r, hr⟩ := ih (start + 1) (acc ++ (s.drop start).take 1) (by omega)
        exact ⟨r, by simp [reverseScanLoop, hlt, hfc, hr]⟩
      | some c =>
        have hmem : c ∈ cands := List.mem_of_find?_eq_some hfc
        obtain ⟨hne, ch, hch⟩ := hc c hmem
        have hlen : 1 ≤ c.length := by
          cases c with
          | nil => exact absurd rfl hne
          | cons x xs => simp
        obtain ⟨r, hr⟩ := ih (start + c.length) (acc ++ [ch]) (by omega)
        exact ⟨r, by simp [reverseScanLoop, hlt, hfc, hch, hr]⟩
    · exact ⟨acc, by simp [reverseScanLoop, hlt]⟩

theorem option_mapM_loop_total {α β : Type} (f : α → Option β) :
    ∀ (l : List α) (acc : List β), (∀ a ∈ l, ∃ b, f a = some b) →
      ∃ r, List.mapM.loop f l acc = some r ∧ r.length = acc.length + l.length := by
  intro l
  induction l with
  | nil => intro acc _; exact ⟨acc.reverse, rfl, by simp⟩
  | cons a as ih =>
    intro acc h
    obtain ⟨b, hb⟩ := h a (by simp)
    obtain ⟨r, hr, hlen⟩ := ih (b :: acc) (fun x hx => h x (by simp [hx]))
    refine ⟨r, ?_, ?_⟩
    · simp [List.mapM.loop, hb, hr]
    · simp only [List.length_cons] at hlen ⊢
      omega

theorem option_mapM_total {α β : Type} (f : α → Option β) (l : List α)
    (h : ∀ a ∈ l, ∃ b, f a = some b) :
    ∃ r, l.mapM f = some r ∧ r.length = l.length := by
  obtain ⟨r, hr, hlen⟩ := option_mapM_loop_total f l [] h
  exact ⟨r, hr, by simpa using hlen⟩

/-- C9 counterexample: the replacement map `{'x' -> ""}` and environment
entry `P_a = v` consist only of ASCII (single-byte) characters, yet the
reverse scan of `generate_additions` never terminates — the empty candidate
string matches at every position and advances `start` by its length `0`
forever.  With the exact fuel of the embedding (see the header note), the
divergence shows as `none`. -/
theorem customGenerateAdditions_diverges_on_empty_replacement :
    (∀ e ∈ ([( "P_a".toList, "v".toList)] : Environment), ∀ c ∈ e.1, c.toNat < 128) ∧
    (∀ e ∈ ([('x', ([] : Str))] : ReplacementMap), ∀ c ∈ e.2, c.toNat < 128) ∧
    customGenerateAdditions [('x', ([] : Str))] [( "P_a".toList, "v".toList)]
      ( "P_".toList) = none := by
  refine ⟨by decide, by decide, by decide⟩

/-- C9 as amended: when every environment name and every replacement string
is ASCII and every replacement string is non-empty, `generate_additions` of
the custom overrider terminates and returns one property per prefixed
environment entry (every byte slice then falls on a character boundary, byte
and character indices coinciding on ASCII data). -/
theorem customGenerateAdditions_total (m : ReplacementMap) (env : Environment)
    (pfx : Str) (hne : ∀ e ∈ m, e.2 ≠ [])
    (_hasciiEnv : ∀ e ∈ env, ∀ c ∈ e.1, c.toNat < 128)
    (_hasciiMap : ∀ e ∈ m, ∀ c ∈ e.2, c.toNat < 128) :
    ∃ r, customGenerateAdditions m env pfx = some r ∧
      r.length = (env.filter (fun e => pfx.isPrefixOf e.1)).length := by
  have hc : ∀ c ∈ replacementDescending m,
      c ≠ [] ∧ ∃ ch, revGet (reverseReplacementIndex m) c = some ch := by
    intro c hcmem
    have hmem : c ∈ (reverseReplacementIndex m).map (fun e => e.1) :=
      (mem_sortByLenDesc _ c).mp hcmem
    refine ⟨?_, revGet_isSome_of_mem _ c hmem⟩
    have hval : c ∈ m.map (fun e => e.2) := by
      simpa [reverseReplacementIndex, List.map_map, Function.comp] using hmem
    obtain ⟨e, he, hec⟩ := List.mem_map.mp hval
    exact hec ▸ hne e he
  unfold customGenerateAdditions
  apply option_mapM_total
  intro e _
  obtain ⟨r, hr⟩ := reverseScanLoop_total (reverseReplacementIndex m)
    (replacementDescending m) (trimStartMatches pfx e.1) hc
    ((trimStartMatches pfx e.1).length + 1) 0 [] (by omega)
  exact ⟨⟨r, e.2⟩, by simp [customReverseKey, hr]⟩

/-- Witness for `customGenerateAdditions_total` on the C1 replacement map and
the single-entry environment `P_foo = v`. -/
theorem customGenerateAdditions_total_witness :
    (∀ e ∈ c1Map, e.2 ≠ []) ∧
    (∀ e ∈ ([( "P_foo".toList, "v".toList)] : Environment), ∀ c ∈ e.1, c.toNat < 128) ∧
    (∀ e ∈ c1Map, ∀ c ∈ e.2, c.toNat < 128) ∧
    (∃ r, customGenerateAdditions c1Map [( "P_foo".toList, "v".toList)]
        ( "P_".toList) = some r ∧
      r.length = (([( "P_foo".toList, "v".toList)] : Environment).filter
        (fun e => "P_".toList.isPrefixOf e.1)).length) :=
  ⟨by decide, by decide, by decide,
    customGenerateAdditions_total c1Map [( "P_foo".toList, "v".toList)]
      ( "P_".toList) (by decide) (by decide) (by decide)⟩

/-! Embedding of the driver loop of `main_exec` in `main.rs`, abstracted over
the overrider exactly as the source is over `Box<dyn Overrider>`;
configuration plumbing, file handling and the temp-file swap are external
I/O glue and stay outside the embedding. -/

/-- One output line written by the driver: `writeln!` of an ignorable line,
or `writeln!("{}={}", key, value)` of a property line. -/
inductive OutLine where
  | outIgnorable (s : Str)
  | outProp (key value : Str)
deriving DecidableEq

/-- The `Overrider` capability the driver consumes. -/
structure OverriderFns where
  resolve : Str → Option Str → Option Str
  additions : Str → List Property

/-- `SpringStyleOverrider` packaged as the driver's trait object. -/
def springOverrider (env : Environment) : OverriderFns :=
  ⟨fun key pfx => springResolveSubstitution env key pfx,
   fun pfx => springGenerateAdditions env pfx⟩

/-- The per-line loop of `main_exec`: parse each line (1-based numbering),
write ignorable lines through, write each property with its resolved
override or its original value, and record the key into
`defined_properties` (`HashSet::replace`; the model conses onto the seen
list, membership being all that is consumed).  Returns the seen keys and the
emitted lines; a parse error aborts the run (fail-fast). -/
def runLines (ov : OverriderFns) (pfx : Str) :
    List Str → Int → List Str → Except InternalError (List Str × List OutLine)
  | [], _, seen => .ok (seen, [])
  | line :: rest, n, seen =>
    match parseLine line n with
    | .error e => .error e
    | .ok (.ignorable s) =>
      (runLines ov pfx rest (n + 1) seen).map (fun r => (r.1, .outIgnorable s :: r.2))
    | .ok (.prop p) =>
      let out : OutLine :=
        match ov.resolve p.key (some pfx) with
        | some v => .outProp p.key v
        | none => .outProp p.key p.value
      (runLines ov pfx rest (n + 1) (p.key :: seen)).map
        (fun r => (r.1, out :: r.2))

/-- The addition lines appended after the loop: every generated property
whose key is not among the defined properties. -/
def additionsOut (ov : OverriderFns) (pfx : Str) (seen : List Str) : List OutLine :=
  ((ov.additions pfx).filter (fun p => !(seen.contains p.key))).map
    (fun p => .outProp p.key p.value)

/-- The pure core of `main_exec`: input lines, prefix and overrider in,
output lines out. -/
def mainExec (ov : OverriderFns) (pfx : Str) (lines : List Str) :
    Except InternalError (List OutLine) :=
  match runLines ov pfx lines 1 [] with
  | .error e => .error e
  | .ok (seen, outs) => .ok (outs ++ additionsOut ov pfx seen)

/-- Number of emitted property lines carrying the given key. -/
def countPropKey (l : List OutLine) (k : Str) : Nat :=
  (l.filter (fun o => match o with | .outProp key _ => key == k | _ => false)).length

/-- The key defined by an input line, when it parses as a property (the `ok`
results of `parse_line` do not depend on the line number). -/
def lineKey? (line : Str) : Option Str :=
  match parseLine line 0 with
  | .ok (.prop p) => some p.key
  | _ => none

/-- Number of input property lines defining the given key. -/
def inputPropCount (lines : List Str) (k : Str) : Nat :=
  ((lines.filterMap lineKey?).filter (fun key => key == k)).length

theorem parseLine_ok_irrel (line : Str) (n m : Int) (l : Line)
    (h : parseLine line n = .ok l) : parseLine line m = .ok l := by
  unfold parseLine at h ⊢
  by_cases h1 : line.head? = some '#'
  · simpa [h1] using h
  · by_cases h2 : line.all rustIsWhitespace
    · simpa [h1, h2] using h
    · cases hs : splitOnceChar '=' line with
      | none => simp [h1, h2, hs] at h
      | some kv =>
        by_cases hk : ' ' ∈ kv.1
        · simp [h1, h2, hs, hk] at h
        · simpa [h1, h2, hs, hk] using h

theorem countPropKey_cons_ign (s : Str) (l : List OutLine) (k : Str) :
    countPropKey (.outIgnorable s :: l) k = countPropKey l k := by
  simp [countPropKey]

theorem countPropKey_cons_prop (key v : Str) (l : List OutLine) (k : Str) :
    countPropKey (.outProp key v :: l) k =
      (if key = k then 1 else 0) + countPropKey l k := by
  by_cases h : key = k <;> simp [countPropKey, h, Nat.add_comm]

theorem countPropKey_append (a b : List OutLine) (k : Str) :
    countPropKey (a ++ b) k = countPropKey a k + countPropKey b k := by
  simp [countPropKey, List.filter_append]

theorem inputPropCount_cons_none (line : Str) (rest : List Str) (k : Str)
    (h : lineKey? line = none) :
    inputPropCount (line :: rest) k = inputPropCount rest k := by
  simp [inputPropCount, List.filterMap_cons, h]

theorem inputPropCount_cons_some (line : Str) (rest : List Str) (k key : Str)
    (h : lineKey? line = some key) :
    inputPropCount (line :: rest) k =
      (if key = k then 1 else 0) + inputPropCount rest k := by
  by_cases hk : key = k <;>
    simp [inputPropCount, List.filterMap_cons, h, hk, Nat.add_comm]

/-- Invariant of the per-line loop: property lines emit exactly one output
line per input property line with a given key, and the seen set ends up
holding exactly the keys of the consumed property lines (over the initial
seen set). -/
theorem runLines_spec (ov : OverriderFns) (pfx : Str) (k : Str) :
    ∀ (lines : List Str) (n : Int) (seen seen' : List Str) (outs : List OutLine),
      runLines ov pfx lines n seen = .ok (seen', outs) →
      countPropKey outs k = inputPropCount lines k ∧
      (k ∈ seen' ↔ k ∈ seen ∨ 1 ≤ inputPropCount lines k) := by
  intro lines
  induction lines with
  | nil =>
    intro n seen seen' outs h
    simp [runLines] at h
    obtain ⟨h1, h2⟩ := h
    subst h1
    subst h2
    simp [countPropKey, inputPropCount]
  | cons line rest ih =>
    intro n seen seen' outs h
    simp only [runLines] at h
    cases hp : parseLine line n with
    | error e => rw [hp] at h; simp at h
    | ok l =>
      rw [hp] at h
      cases l with
      | ignorable s =>
        cases hr : runLines ov pfx rest (n + 1) seen with
        | error e => rw [hr] at h; simp [Except.map] at h
        | ok r =>
          rw [hr] at h
          simp [Except.map] at h
          obtain ⟨h1, h2⟩ := h
          obtain ⟨hcount, hseen⟩ := ih (n + 1) seen r.1 r.2 (by rw [hr])
          have hlk : lineKey? line = none := by
            simp [lineKey?, parseLine_ok_irrel line n 0 _ hp]
          subst h1
          rw [← h2, countPropKey_cons_ign, inputPropCount_cons_none line rest k hlk]
          exact ⟨hcount, hseen⟩
      | prop p =>
        dsimp only at h
        cases hr : runLines ov pfx rest (n + 1) (p.key :: seen) with
        | error e => rw [hr] at h; simp [Except.map] at h
        | ok r =>
          rw [hr] at h
          simp [Except.map] at h
          obtain ⟨h1, h2⟩ := h
          obtain ⟨hcount, hseen⟩ := ih (n + 1) (p.key :: seen) r.1 r.2 (by rw [hr])
          have hlk : lineKey? line = some p.key := by
            simp [lineKey?, parseLine_ok_irrel line n 0 _ hp]
          subst h1
          have hout : countPropKey outs k =
              (if p.key = k then 1 else 0) + countPropKey r.2 k := by
            rw [← h2]
            cases hres : ov.resolve p.key (some pfx) <;>
              simp [hres, countPropKey_cons_prop]
          rw [hout, inputPropCount_cons_some line rest k p.key hlk, hcount]
          refine ⟨rfl, ?_⟩
          rw [hseen]
          by_cases hpk : p.key = k
          · subst hpk
            simp
          · simp only [List.mem_cons, if_neg hpk, Nat.zero_add]
            constructor
            · rintro ((h | h) | h)
              · exact absurd h.symm hpk
              · exact Or.inl h
              · exact Or.inr h
            · rintro (h | h)
              · exact Or.inl (Or.inr h)
              · exact Or.inr h

/-- An addition for a key that was defined by a file line is filtered out. -/
theorem countPropKey_additionsOut_of_seen (ov : OverriderFns) (pfx : Str)
    (seen : List Str) (k : Str) (h : k ∈ seen) :
    countPropKey (additionsOut ov pfx seen) k = 0 := by
  unfold additionsOut countPropKey
  rw [List.length_eq_zero, List.filter_eq_nil_iff]
  intro o ho
  obtain ⟨p, hp, hpo⟩ := List.mem_map.mp ho
  obtain ⟨_, hns⟩ := List.mem_filter.mp hp
  have hnotin : p.key ∉ seen := by simpa using hns
  subst hpo
  intro hkk
  have hkeq : p.key = k := by simpa using hkk
  exact hnotin (hkeq ▸ h)

/-- C4 counterexample: two identical input lines `k=1` with an environment
addition for `k` (Spring style, entry `P_K = w`, prefix `P_`): the final
output holds two lines for `k`, not exactly one, though an input property
line defines `k` and the overrider generates an addition for `k`. -/
theorem mainExec_duplicate_file_keys :
    mainExec (springOverrider [( "P_K".toList, "w".toList)]) ("P_".toList)
        [ "k=1".toList, "k=1".toList] =
      .ok [.outProp "k".toList "w".toList, .outProp "k".toList "w".toList] ∧
    ( "k".toList ∈ ((springOverrider [( "P_K".toList, "w".toList)]).additions
        ( "P_".toList)).map Property.key) ∧
    inputPropCount [ "k=1".toList, "k=1".toList] ("k".toList) = 2 ∧
    countPropKey [.outProp "k".toList "w".toList, .outProp "k".toList "w".toList]
      ( "k".toList) = 2 := by
  refine ⟨by decide, by decide, by decide, by decide⟩

/-- C4 as amended: for every overrider, prefix and input line sequence that
the driver consumes successfully, when at least one input property line
defines key `k` and the overrider also generates an addition for `k`, the
final output carries exactly one line for `k` per input property line with
key `k` — each derived from its file line — and never the addition's line:
the addition for `k` is filtered out because the seen-keys set was updated
for every consumed property line (whether or not its override resolved). -/
theorem mainExec_file_lines_win (ov : OverriderFns) (pfx : Str)
    (lines : List Str) (k : Str) (out : List OutLine)
    (hrun : mainExec ov pfx lines = .ok out)
    (_hadd : k ∈ (ov.additions pfx).map Property.key)
    (hfile : 1 ≤ inputPropCount lines k) :
    countPropKey out k = inputPropCount lines k ∧
    ∃ seen outs, runLines ov pfx lines 1 [] = .ok (seen, outs) ∧
      out = outs ++ additionsOut ov pfx seen ∧
      countPropKey (additionsOut ov pfx seen) k = 0 := by
  unfold mainExec at hrun
  cases hr : runLines ov pfx lines 1 [] with
  | error e => rw [hr] at hrun; simp at hrun
  | ok r =>
    obtain ⟨seen, outs⟩ := r
    rw [hr] at hrun
    simp at hrun
    obtain ⟨hcount, hseen⟩ := runLines_spec ov pfx k lines 1 [] seen outs hr
    have hk : k ∈ seen := hseen.mpr (Or.inr hfile)
    have hz := countPropKey_additionsOut_of_seen ov pfx seen k hk
    refine ⟨?_, ⟨seen, outs, rfl, hrun.symm, hz⟩⟩
    rw [← hrun, countPropKey_append, hcount, hz]
    omega

/-- Witness for `mainExec_file_lines_win`: one input line `k=1`, Spring
style, environment `P_K = w`, prefix `P_`. -/
theorem mainExec_file_lines_win_witness :
    mainExec (springOverrider [( "P_K".toList, "w".toList)]) ("P_".toList)
        [ "k=1".toList] = .ok [.outProp "k".toList "w".toList] ∧
    ( "k".toList ∈ ((springOverrider [( "P_K".toList, "w".toList)]).additions
        ( "P_".toList)).map Property.key) ∧
    1 ≤ inputPropCount [ "k=1".toList] ("k".toList) ∧
    (countPropKey [.outProp "k".toList "w".toList] ("k".toList) =
        inputPropCount [ "k=1".toList] ("k".toList) ∧
      ∃ seen outs, runLines (springOverrider [( "P_K".toList, "w".toList)])
          ( "P_".toList) [ "k=1".toList] 1 [] = .ok (seen, outs) ∧
        [OutLine.outProp "k".toList "w".toList] = outs ++
          additionsOut (springOverrider [( "P_K".toList, "w".toList)])
            ( "P_".toList) seen ∧
        countPropKey (additionsOut (springOverrider [( "P_K".toList, "w".toList)])
          ( "P_".toList) seen) ("k".toList) = 0) :=
  ⟨by decide, by decide, by decide,
    mainExec_file_lines_win (springOverrider [( "P_K".toList, "w".toList)])
      ( "P_".toList) [ "k=1".toList] ("k".toList)
      [.outProp "k".toList "w".toList] (by decide) (by decide) (by decide)⟩

/-! Embedding of `Args::validate_and_convert` from `model.rs`.  The `prefix`
field of the Rust structs is rendered `pfx`.  The left-hand-side length test
`left.len() > 1` measures UTF-8 bytes in Rust and is embedded as such
(`utf8Len`), so a single multi-byte character such as `é` is rejected
exactly as the program rejects it. -/

/-- Rust `str::trim`: strip leading and trailing whitespace. -/
def rustTrim (s : Str) : Str :=
  ((s.dropWhile rustIsWhitespace).reverse.dropWhile rustIsWhitespace).reverse

/-- Rust `str::len`: the UTF-8 byte length of a string. -/
def utf8Len (s : Str) : Nat := (s.map Char.utf8Size).sum

/-- `Args` from `model.rs`, as handed over by clap. -/
structure Args where
  output_file : Option Str
  spring : Bool
  pfx : Str
  replacement : List Str
  file : Option Str

/-- `Configuration` from `model.rs`. -/
structure Configuration where
  output_file : Option Str
  spring : Bool
  pfx : Str
  replacement_map : ReplacementMap
  file : Option Str
deriving DecidableEq

/-- The error pushed when `spring` is combined with replacements. -/
def springReplMsg : Str :=
  "replacements are not allowed when 'spring' flag is passed".toList

/-- The error pushed for an empty prefix. -/
def emptyPrefixMsg : Str := "prefix must not be empty".toList

/-- The `error_msg` helper nested in `validate_and_convert`. -/
def replacementErrorMsg (replacement message : Str) : Str :=
  "replacement '".toList ++ replacement ++
    "' does not contain valid mapping in the format 'c#str': ".toList ++ message

/-- Outcome of one pass of the `for replacement in self.replacement` loop. -/
inductive ReplacementOutcome where
  | bad (msg : Str)
  | panicked
  | fine (c : Char) (s : Str)
deriving DecidableEq

/-- The body of the replacement-parsing loop of `validate_and_convert`:
no `#`, or a trimmed left side longer than one byte (`left.len() > 1` is a
byte count, so a single multi-byte character is also rejected), push an
error; `\-` is accepted as an escaped `-`; an empty trimmed left side panics
on `left.chars().next().unwrap()`; otherwise the mapping is inserted. -/
def analyzeReplacement (r : Str) : ReplacementOutcome :=
  match splitOnceChar '#' r with
  | none => .bad (replacementErrorMsg r ( "'#' missing".toList))
  | some (left0, right0) =>
    let left1 := rustTrim left0
    let right := rustTrim right0
    let left := if left1 = "\\-".toList then "-".toList else left1
    if utf8Len left > 1 then
      .bad (replacementErrorMsg r
        ( "'".toList ++ left ++ "' is not a character".toList))
    else
      match left.head? with
      | none => .panicked
      | some c => .fine c right

/-- `HashMap::insert`: replace the value of an existing key, else append. -/
def rmapInsert (m : ReplacementMap) (c : Char) (s : Str) : ReplacementMap :=
  match m with
  | [] => [(c, s)]
  | e :: es => if e.1 = c then (c, s) :: es else e :: rmapInsert es c s

/-- The replacement-parsing loop, threading the error list and the map;
`none` models the panic aborting the process. -/
def processReplacements :
    List Str → List Str → ReplacementMap → Option (List Str × ReplacementMap)
  | [], errors, map => some (errors, map)
  | r :: rs, errors, map =>
    match analyzeReplacement r with
    | .bad msg => processReplacements rs (errors ++ [msg]) map
    | .panicked => none
    | .fine c s => processReplacements rs errors (rmapInsert map c s)

/-- `Args::validate_and_convert`: collect the spring/replacement clash and
the empty-prefix error, short-circuit to a spring configuration when valid,
otherwise parse the replacement specs (collecting their errors), and fail
with all collected messages or succeed.  `none` models a panic. -/
def validateAndConvert (a : Args) : Option (Except InternalError Configuration) :=
  let errors0 :=
    (if a.spring && !a.replacement.isEmpty then [springReplMsg] else []) ++
      (if a.pfx = [] then [emptyPrefixMsg] else [])
  if a.spring && errors0.isEmpty then
    some (.ok ⟨a.output_file, a.spring, a.pfx, [], a.file⟩)
  else
    match processReplacements a.replacement errors0 [] with
    | none => none
    | some (errors, map) =>
      if errors ≠ [] then some (.error (.ArgumentValidationErrors errors))
      else some (.ok ⟨a.output_file, a.spring, a.pfx, map, a.file⟩)

/-- The message a replacement spec contributes, if any. -/
def specBadMsg (r : Str) : Option Str :=
  match analyzeReplacement r with
  | .bad m => some m
  | _ => none

/-- All messages `validate_and_convert` collects, in push order. -/
def expectedErrors (a : Args) : List Str :=
  (if a.spring && !a.replacement.isEmpty then [springReplMsg] else []) ++
    (if a.pfx = [] then [emptyPrefixMsg] else []) ++
    a.replacement.filterMap specBadMsg

/-- C8 counterexample: (a) `spring=true` with the non-empty replacement list
`["invalid"]` yields the spring message *plus* the malformed-spec message —
not exactly the one message the claim states (the spring short-circuit is
skipped as soon as any error was recorded, so the replacement loop still
runs); (b) an empty prefix combined with the spec `#x` (empty left-hand
side) panics on `unwrap` instead of yielding `"prefix must not be empty"`. -/
theorem validateAndConvert_not_exactly_one :
    validateAndConvert ⟨none, true, "P".toList, [ "invalid".toList], none⟩ =
      some (.error (.ArgumentValidationErrors [springReplMsg,
        replacementErrorMsg "invalid".toList "'#' missing".toList])) ∧
    [springReplMsg, replacementErrorMsg "invalid".toList "'#' missing".toList] ≠
      [springReplMsg] ∧
    validateAndConvert ⟨none, false, [], [ "#x".toList], none⟩ = none := by
  refine ⟨by decide, by decide, by decide⟩

/-- The replacement loop without panics: the error list grows by exactly the
messages of the malformed specs, in order. -/
theorem processReplacements_no_panic (rs : List Str)
    (hnp : ∀ r ∈ rs, analyzeReplacement r ≠ .panicked) :
    ∀ (errors : List Str) (map : ReplacementMap), ∃ mapF,
      processReplacements rs errors map =
        some (errors ++ rs.filterMap specBadMsg, mapF) := by
  induction rs with
  | nil => intro errors map; exact ⟨map, by simp [processReplacements]⟩
  | cons r rs ih =>
    intro errors map
    have hnp' : ∀ x ∈ rs, analyzeReplacement x ≠ .panicked :=
      fun x hx => hnp x (by simp [hx])
    cases han : analyzeReplacement r with
    | bad m =>
      obtain ⟨mapF, hF⟩ := ih hnp' (errors ++ [m]) map
      refine ⟨mapF, ?_⟩
      simp only [processReplacements, han, hF, List.filterMap_cons, specBadMsg]
      simp [List.append_assoc]
    | panicked => exact absurd han (hnp r (by simp))
    | fine c s =>
      obtain ⟨mapF, hF⟩ := ih hnp' errors (rmapInsert map c s)
      refine ⟨mapF, ?_⟩
      simp only [processReplacements, han, hF, List.filterMap_cons, specBadMsg]

/-- C8 as amended: provided no replacement spec has an empty trimmed
left-hand side (such a spec panics on `unwrap` instead of reporting),
`validate_and_convert` collects every validation error across every
offending input and reports them all together: the spring/replacement clash
message when `spring=true` meets a non-empty replacement list (exactly that
message when nothing else offends), the empty-prefix message when the prefix
is empty, both together when both conditions hold, and one malformed-spec
message per spec missing `#` or with an over-long left side (after `\-`
escaping); with nothing to report, a configuration is returned. -/
theorem validateAndConvert_collects_all (a : Args)
    (hnp : ∀ r ∈ a.replacement, analyzeReplacement r ≠ .panicked) :
    (expectedErrors a ≠ [] → validateAndConvert a =
      some (.error (.ArgumentValidationErrors (expectedErrors a)))) ∧
    (expectedErrors a = [] → ∃ c, validateAndConvert a = some (.ok c)) := by
  by_cases hshort : a.spring && ((if a.spring && !a.replacement.isEmpty
      then [springReplMsg] else []) ++
      (if a.pfx = [] then [emptyPrefixMsg] else [])).isEmpty
  · have hsp : a.spring = true := by
      cases hA : a.spring
      · rw [hA] at hshort
        simp at hshort
      · rfl
    have hcond : a.replacement = [] ∧ ¬ a.pfx = [] := by
      have hs := hshort
      rw [hsp] at hs
      simpa using hs
    have hexp : expectedErrors a = [] := by
      simp [expectedErrors, hcond.1, hcond.2]
    refine ⟨fun hne => absurd hexp hne, fun _ => ?_⟩
    refine ⟨⟨a.output_file, a.spring, a.pfx, [], a.file⟩, ?_⟩
    simp only [validateAndConvert]
    rw [if_pos hshort]
  · obtain ⟨mapF, hF⟩ := processReplacements_no_panic a.replacement hnp
      ((if a.spring && !a.replacement.isEmpty then [springReplMsg] else []) ++
        (if a.pfx = [] then [emptyPrefixMsg] else [])) []
    have hexp : ((if a.spring && !a.replacement.isEmpty
        then [springReplMsg] else []) ++
        (if a.pfx = [] then [emptyPrefixMsg] else [])) ++
        a.replacement.filterMap specBadMsg = expectedErrors a := by
      simp [expectedErrors, List.append_assoc]
    constructor
    · intro hne
      simp only [validateAndConvert]
      rw [if_neg hshort, hF, hexp]
      simp [hne]
    · intro hz
      refine ⟨⟨a.output_file, a.spring, a.pfx, mapF, a.file⟩, ?_⟩
      simp only [validateAndConvert]
      rw [if_neg hshort, hF, hexp, hz]
      simp

/-- Witness for `validateAndConvert_collects_all`: `spring=true`, empty
prefix and the malformed spec `bad` together yield exactly the three
messages. -/
theorem validateAndConvert_collects_all_witness :
    (∀ r ∈ ([ "bad".toList] : List Str), analyzeReplacement r ≠ .panicked) ∧
    ((expectedErrors ⟨none, true, [], [ "bad".toList], none⟩ ≠ [] →
      validateAndConvert ⟨none, true, [], [ "bad".toList], none⟩ =
        some (.error (.ArgumentValidationErrors
          (expectedErrors ⟨none, true, [], [ "bad".toList], none⟩)))) ∧
    (expectedErrors ⟨none, true, [], [ "bad".toList], none⟩ = [] →
      ∃ c, validateAndConvert ⟨none, true, [], [ "bad".toList], none⟩ =
        some (.ok c))) :=
  ⟨by decide,
    validateAndConvert_collects_all ⟨none, true, [], [ "bad".toList], none⟩
      (by decide)⟩

end PropertiesBuilder
